import Mathlib

/-!
# Verification of the handmade_blockchain core (hb package)

Shallow embedding of `hb/util.py`, `hb/tx.py`, `hb/block.py`, `hb/mining.py`
and `hb/address.py`.  Byte strings are modelled as `List Nat` (each entry a
byte value), Python arbitrary-precision integers as `Nat`, functions that can
raise exceptions as `Except String` (or `Option` where Python returns `None`).
-/

set_option maxRecDepth 40000

instance {ε α : Type} [DecidableEq ε] [DecidableEq α] : DecidableEq (Except ε α) := fun x y =>
  match x, y with
  | .error e1, .error e2 =>
    if h : e1 = e2 then .isTrue (h ▸ rfl) else .isFalse fun hh => h (Except.error.inj hh)
  | .error _, .ok _ => .isFalse fun hh => Except.noConfusion hh
  | .ok _, .error _ => .isFalse fun hh => Except.noConfusion hh
  | .ok a1, .ok a2 =>
    if h : a1 = a2 then .isTrue (h ▸ rfl) else .isFalse fun hh => h (Except.ok.inj hh)

/-! ## Byte-string helpers (Python `int.to_bytes` / `int.from_bytes`) -/

/-- Python `n.to_bytes(len, "little")`.  (CPython raises `OverflowError` when
`n ≥ 256 ^ len`; every caller in the repository passes an in-range value, and
this model truncates instead.) -/
def to_bytes_le (n len : Nat) : List Nat :=
  (List.range len).map (fun k => n / 256 ^ k % 256)

/-- Python `n.to_bytes(len, "big")`. -/
def to_bytes_be (n len : Nat) : List Nat :=
  (to_bytes_le n len).reverse

/-- Python `int.from_bytes(bs, "big")`. -/
def from_bytes_be (bs : List Nat) : Nat :=
  bs.foldl (fun a b => a * 256 + b) 0

/-! ## SHA-256 (the `hashlib.sha256` primitive used by `util.sha256`)

Implemented bit-exactly (FIPS 180-4) over byte lists so that every hash the
repository computes can be evaluated inside Lean. -/

def m32 (x : Nat) : Nat := x % 4294967296

def rotr32 (n x : Nat) : Nat := m32 ((x <<< (32 - n)) ||| (x >>> n))

def sha_ch (e f g : Nat) : Nat := (e &&& f) ^^^ ((4294967295 ^^^ e) &&& g)

def sha_maj (x y z : Nat) : Nat := ((x &&& y) ^^^ (x &&& z)) ^^^ (y &&& z)

def bsig0 (x : Nat) : Nat := rotr32 2 x ^^^ rotr32 13 x ^^^ rotr32 22 x

def bsig1 (x : Nat) : Nat := rotr32 6 x ^^^ rotr32 11 x ^^^ rotr32 25 x

def ssig0 (x : Nat) : Nat := rotr32 7 x ^^^ rotr32 18 x ^^^ (x >>> 3)

def ssig1 (x : Nat) : Nat := rotr32 17 x ^^^ rotr32 19 x ^^^ (x >>> 10)

/-- The 64 SHA-256 round constants, in decimal. -/
def sha_k : List Nat :=
  [1116352408, 1899447441, 3049323471, 3921009573, 961987163,
   1508970993, 2453635748, 2870763221, 3624381080, 310598401,
   607225278, 1426881987, 1925078388, 2162078206, 2614888103,
   3248222580, 3835390401, 4022224774, 264347078, 604807628,
   770255983, 1249150122, 1555081692, 1996064986, 2554220882,
   2821834349, 2952996808, 3210313671, 3336571891, 3584528711,
   113926993, 338241895, 666307205, 773529912, 1294757372,
   1396182291, 1695183700, 1986661051, 2177026350, 2456956037,
   2730485921, 2820302411, 3259730800, 3345764771, 3516065817,
   3600352804, 4094571909, 275423344, 430227734, 506948616,
   659060556, 883997877, 958139571, 1322822218, 1537002063,
   1747873779, 1955562222, 2024104815, 2227730452, 2361852424,
   2428436474, 2756734187, 3204031479, 3329325298]

/-- The eight SHA-256 initial hash values, in decimal. -/
def sha_h0 : List Nat :=
  [1779033703, 3144134277, 1013904242, 2773480762,
   1359893119, 2600822924, 528734635, 1541459225]

def bytes_to_words : List Nat → List Nat
  | a :: b :: c :: d :: rest => (((a * 256 + b) * 256 + c) * 256 + d) :: bytes_to_words rest
  | _ => []

def sched_ext : List Nat → Nat → List Nat
  | ws, 0 => ws
  | ws, n + 1 =>
    let len := ws.length
    let w := m32 (ssig1 (ws.getD (len - 2) 0) + ws.getD (len - 7) 0 +
                  ssig0 (ws.getD (len - 15) 0) + ws.getD (len - 16) 0)
    sched_ext (ws ++ [w]) n

def round_step (st : List Nat) (kw : Nat × Nat) : List Nat :=
  match st with
  | [a, b, c, d, e, f, g, h] =>
    let t1 := m32 (h + bsig1 e + sha_ch e f g + kw.1 + kw.2)
    let t2 := m32 (bsig0 a + sha_maj a b c)
    [m32 (t1 + t2), a, b, c, m32 (d + t1), e, f, g]
  | st => st

def sha_compress (hs : List Nat) (chunk : List Nat) : List Nat :=
  let ws := sched_ext (bytes_to_words chunk) 48
  let st := (sha_k.zip ws).foldl round_step hs
  List.zipWith (fun a b => m32 (a + b)) hs st

def chunks64_fuel : Nat → List Nat → List (List Nat)
  | 0, _ => []
  | _ + 1, [] => []
  | fuel + 1, a :: rest => (a :: rest).take 64 :: chunks64_fuel fuel ((a :: rest).drop 64)

def chunks64 (l : List Nat) : List (List Nat) := chunks64_fuel l.length l

def pad_msg (msg : List Nat) : List Nat :=
  msg ++ 128 :: (List.replicate ((119 - msg.length % 64) % 64) 0 ++ to_bytes_be (8 * msg.length) 8)

/-- SHA-256 of a byte list, as a 32-entry byte list. -/
def sha256 (msg : List Nat) : List Nat :=
  ((chunks64 (pad_msg msg)).foldl sha_compress sha_h0).foldr
    (fun w acc => to_bytes_be w 4 ++ acc) []

/-- `util.sha256d`: double SHA-256. -/
def sha256d (x : List Nat) : List Nat := sha256 (sha256 x)

/-! ## `hb/util.py` -/

/-- `util.int_to_bytes`: Bitcoin-style variable-length count encoding. -/
def int_to_bytes (num : Nat) : List Nat :=
  if num < 0xfd then [num]
  else if num ≤ 0xffff then 0xfd :: to_bytes_le num 2
  else if num ≤ 0xffffffff then 0xfe :: to_bytes_le num 4
  else 0xff :: to_bytes_le num 8

/-- `util.bits_to_target`: decode the compact difficulty representation,
raising (modelled as `Except.error`) when exponent or mantissa is out of
range. -/
def bits_to_target (bits : Nat) : Except String Nat :=
  let bitsN := (bits >>> 24) &&& 0xff
  if 0x03 ≤ bitsN ∧ bitsN ≤ 0x1f then
    let bitsBase := bits &&& 0xffffff
    if 0x8000 ≤ bitsBase ∧ bitsBase ≤ 0x7fffff then
      .ok (bitsBase <<< (8 * (bitsN - 3)))
    else .error "Second part of bits should be in [0x8000, 0x7fffff]"
  else .error "First part of bits should be in [0x03, 0x1f]"

/-- The `for tx in txs[1:]` loop of `util.made_merkle_root`: `one` is the
pending unpaired hash, the returned pair is (`result`, final `one`). -/
def mm_loop : Option (List Nat) → List (List Nat) → List (List Nat) →
    List (List Nat) × Option (List Nat)
  | one, [], acc => (acc, one)
  | some o, tx :: rest, acc => mm_loop none rest (acc ++ [sha256d (o ++ tx)])
  | none, tx :: rest, acc => mm_loop (some tx) rest acc

/-- One level of `made_merkle_root`: the pairing loop followed by the
odd-leftover handling (`result.append(sha256d(one+one))` when some pairing
happened, plain pass-through when `result` is still empty). -/
def merkle_level : List (List Nat) → List (List Nat)
  | [] => []
  | t :: rest =>
    let p := mm_loop (some t) rest []
    match p.2 with
    | none => p.1
    | some o => if p.1 = [] then [o] else p.1 ++ [sha256d (o ++ o)]

def made_merkle_root_fuel : Nat → List (List Nat) → Option (List Nat)
  | 0, _ => none
  | fuel + 1, txs =>
    match txs with
    | [] => none
    | t :: rest =>
      let result := merkle_level (t :: rest)
      if 2 ≤ result.length then made_merkle_root_fuel fuel result
      else result.head?

/-- `util.made_merkle_root`.  Python recursion is modelled with fuel
`txs.length`, which is proved sufficient below; the empty input (on which
Python raises `IndexError`) yields `none`. -/
def made_merkle_root (txs : List (List Nat)) : Option (List Nat) :=
  made_merkle_root_fuel txs.length txs

/-! ## `hb/tx.py` -/

structure OutPoint where
  tx_hash : List Nat
  index : Nat
deriving DecidableEq, Repr

structure TxIn where
  outpoint : OutPoint
  script_sig : List Nat
  sequence : Nat
deriving DecidableEq, Repr

structure TxOut where
  value : Nat
  script_pubkey : List Nat
deriving DecidableEq, Repr

structure Tx where
  version : Nat
  tx_ins : List TxIn
  tx_outs : List TxOut
  locktime : Nat
deriving DecidableEq, Repr

/-- `OutPoint.as_bin`. -/
def OutPoint.as_bin (op : OutPoint) : List Nat :=
  op.tx_hash ++ to_bytes_le op.index 4

/-- `TxIn.as_bin`. -/
def TxIn.as_bin (ti : TxIn) : List Nat :=
  ti.outpoint.as_bin ++ int_to_bytes ti.script_sig.length ++ ti.script_sig ++
    to_bytes_le ti.sequence 4

/-- `TxOut.as_bin`. -/
def TxOut.as_bin (to_ : TxOut) : List Nat :=
  to_bytes_le to_.value 8 ++ int_to_bytes to_.script_pubkey.length ++ to_.script_pubkey

/-- `Tx.as_bin`. -/
def Tx.as_bin (tx : Tx) : List Nat :=
  to_bytes_le tx.version 4 ++ int_to_bytes tx.tx_ins.length ++
    (tx.tx_ins.map TxIn.as_bin).flatten ++ int_to_bytes tx.tx_outs.length ++
    (tx.tx_outs.map TxOut.as_bin).flatten ++ to_bytes_le tx.locktime 4

/-- `Tx.tx_hash`. -/
def Tx.tx_hash (tx : Tx) : List Nat := sha256d tx.as_bin

/-! ## `hb/block.py`: the `Block` dataclass and its encodings -/

structure Block where
  version : Nat
  hash_prev_block : List Nat
  hash_merkle_root : List Nat
  time : Nat
  bits : Nat
  nonce : Nat
  transactions : List Tx
deriving DecidableEq, Repr

/-- `Block._as_bin`: the header-only encoding. -/
def Block.header_bin (b : Block) : List Nat :=
  to_bytes_le b.version 4 ++ b.hash_prev_block ++ b.hash_merkle_root ++
    to_bytes_le b.time 4 ++ to_bytes_le b.bits 4 ++ to_bytes_le b.nonce 4

/-- `Block.block_hash`. -/
def Block.block_hash (b : Block) : List Nat := sha256d b.header_bin

/-- Python `block_bin += tx` inside `Block.as_bin`, where `block_bin : bytes`
and `tx : Tx`.  `Tx` is a plain dataclass with no bytes conversion, so CPython
raises `TypeError: can't concat Tx to bytes`; the error is modelled as
`none`. -/
def bytes_concat_tx (_acc : List Nat) (_tx : Tx) : Option (List Nat) := none

/-- `Block.as_bin`: header, then `int_to_bytes(len(transactions))`, then the
`for tx in self.transactions: block_bin += tx` loop (which raises on its first
iteration, see `bytes_concat_tx`). -/
def Block.as_bin (b : Block) : Option (List Nat) :=
  b.transactions.foldlM bytes_concat_tx
    (b.header_bin ++ int_to_bytes b.transactions.length)

/-- What the spec (and the docstring of `Block.as_bin`) says the full block
encoding is: header, transaction count, then each transaction's binary
encoding concatenated in order.  Named after the claim; used to compare the
actual `Block.as_bin` against the specified encoding. -/
def Block.as_bin_claimed (b : Block) : List Nat :=
  b.header_bin ++ int_to_bytes b.transactions.length ++
    (b.transactions.map Tx.as_bin).flatten

/-! ## `hb/mining.py`: the nonce search -/

/-- `block.nonce = i`. -/
def set_nonce (b : Block) (n : Nat) : Block := { b with nonce := n }

/-- `int.from_bytes(block.block_hash(), "big")`. -/
def block_hash_int (b : Block) : Nat := from_bytes_be b.block_hash

/-- The nonce values examined by one pass of the `for i in range(start,
0xffffffff)` loop in `mining_block`. -/
def attempt_nonces (start : Nat) : List Nat :=
  List.range' start (0xffffffff - start)

/-- One pass of the search loop of `mining_block`: the first nonce in
`attempt_nonces start` whose block hash is strictly below `target`, with the
block updated to carry it. -/
def mining_attempt (b : Block) (target start : Nat) : Option Block :=
  (attempt_nonces start).findSome? fun i =>
    if target > block_hash_int (set_nonce b i) then some (set_nonce b i) else none

/-- `mining_block`.  The random restarts (`random.randint(0, 0xffffffff)`)
are supplied as the list `starts`; `.ok none` means the fuel ran out while the
Python code would still be retrying (it never itself returns failure). -/
def mining_block (b : Block) (starts : List Nat) : Except String (Option Block) :=
  match bits_to_target b.bits with
  | .error e => .error e
  | .ok target =>
    match starts with
    | [] => .ok none
    | s :: rest =>
      match mining_attempt b target s with
      | some found => .ok (some found)
      | none => mining_block b rest

/-! ## `hb/block.py`: `get_target` (difficulty retargeting)

`block.py` imports `target_to_bits` from `hb/util.py` and the constants
`retarget_block_count` / `retarget_time_span` from `hb/config.py`, but neither
is present in the repository sources; both are modelled from the spec. -/

def byte_size_fuel : Nat → Nat → Nat
  | _, 0 => 0
  | 0, _ + 1 => 0
  | fuel + 1, n + 1 => byte_size_fuel fuel ((n + 1) / 256) + 1

/-- Number of significant bytes of a big-endian serialization (leading zero
bytes trimmed). -/
def byte_size (n : Nat) : Nat := byte_size_fuel n n

/-- Modelled from the spec: `target_to_bits` (missing from `hb/util.py`,
imported by `hb/block.py`) — "serialize `target` as a big-endian hex string
trimmed of leading zero bytes, take exponent = number of significant bytes,
mantissa = the leading 3 significant bytes as an unsigned integer; if that
mantissa's top bit would set the sign bit (≥ 0x800000), shift mantissa right
by 8 bits and increment exponent by one". -/
def target_to_bits (target : Nat) : Nat :=
  let size := byte_size target
  let mantissa :=
    if size ≤ 3 then target <<< (8 * (3 - size)) else target >>> (8 * (size - 3))
  if 0x800000 ≤ mantissa then ((size + 1) <<< 24) + (mantissa >>> 8)
  else (size <<< 24) + mantissa

/-- The fixed ceiling used by `get_target`. -/
def max_target : Nat :=
  0x0000ffff00000000000000000000000000000000000000000000000000000000

/-- Python list indexing `l[i]` including negative indices; out-of-range
raises `IndexError`. -/
def py_get (l : List Block) (i : Int) : Except String Block :=
  let j : Int := if i < 0 then (l.length : Int) + i else i
  if j < 0 then .error "IndexError"
  else
    match l[j.toNat]? with
    | some b => .ok b
    | none => .error "IndexError"

/-- `block.get_target`, parameterized by the (spec-modelled, missing
`hb/config.py`) constants `retarget_block_count` (N) and
`retarget_time_span` (T).  Timestamps are `Nat`; as in Python,
`max(last.time - first.time, T // 4)` makes the truncation at zero
irrelevant.  Nat division by `T = 0` yields 0 where Python would raise
`ZeroDivisionError`; all theorems below assume `1 ≤ T`. -/
def get_target (N T : Nat) (blocks : List Block) : Except String Nat :=
  if blocks.length % N = 0 then do
    let first ← py_get blocks (-((N : Int) - 1))
    let last ← py_get blocks (-1)
    let target ← bits_to_target last.bits
    let a1 := last.time - first.time
    let a2 := max a1 (T / 4)
    let a3 := min a2 (T * 4)
    let new_target := min max_target (target * a3 / T)
    bits_to_target (target_to_bits new_target)
  else do
    let last ← py_get blocks (-1)
    bits_to_target last.bits

/-- The retarget formula exactly as the claim words it: `actual_timespan` is
taken between the last block and the block `N-1` positions back (index
`len-1-(N-1)`, i.e. Python `blocks[-N]`), instead of the `blocks[-(N-1)]` the
code reads.  Named after the claim for comparison with `get_target`. -/
def get_target_claimed (N T : Nat) (blocks : List Block) : Except String Nat :=
  if blocks.length % N = 0 then do
    let first ← py_get blocks (-(N : Int))
    let last ← py_get blocks (-1)
    let target ← bits_to_target last.bits
    let a1 := last.time - first.time
    let a2 := max a1 (T / 4)
    let a3 := min a2 (T * 4)
    let new_target := min max_target (target * a3 / T)
    bits_to_target (target_to_bits new_target)
  else do
    let last ← py_get blocks (-1)
    bits_to_target last.bits

/-! ## `Block.from_dict` and the dictionary records it decodes

Records model fully-populated JSON dictionaries: every field present, with
hash and script fields as hex strings, exactly the shape `as_dict`
produces. -/

/-- One hex digit, as `binascii.a2b_hex` accepts it. -/
def hex_digit_val (c : Char) : Option Nat :=
  if 48 ≤ c.toNat ∧ c.toNat ≤ 57 then some (c.toNat - 48)
  else if 97 ≤ c.toNat ∧ c.toNat ≤ 102 then some (c.toNat - 87)
  else if 65 ≤ c.toNat ∧ c.toNat ≤ 70 then some (c.toNat - 55)
  else none

def hex_pairs : List Char → Option (List Nat)
  | [] => some []
  | c1 :: c2 :: rest => do
    let d1 ← hex_digit_val c1
    let d2 ← hex_digit_val c2
    let r ← hex_pairs rest
    pure ((d1 * 16 + d2) :: r)
  | [_] => none

/-- `binascii.a2b_hex`: `none` models the `binascii.Error` raised on odd
length or a non-hex character. -/
def a2b_hex (s : String) : Option (List Nat) := hex_pairs s.toList

structure OutPointRec where
  tx_hash : String
  index : Nat
deriving DecidableEq, Repr

structure TxInRec where
  outpoint : OutPointRec
  script_sig : String
  sequence : Nat
deriving DecidableEq, Repr

structure TxOutRec where
  value : Nat
  script_pubkey : String
deriving DecidableEq, Repr

structure TxRec where
  version : Nat
  tx_ins : List TxInRec
  tx_outs : List TxOutRec
  locktime : Nat
deriving DecidableEq, Repr

structure BlockRec where
  version : Nat
  hash_prev_block : String
  hash_merkle_root : String
  time : Nat
  bits : Nat
  nonce : Nat
  transactions : List TxRec
deriving DecidableEq, Repr

/-- `OutPoint.from_dict` (no byte reversal on `tx_hash` in the source). -/
def OutPoint.from_dict (r : OutPointRec) : Option OutPoint := do
  let h ← a2b_hex r.tx_hash
  pure ⟨h, r.index⟩

/-- `TxIn.from_dict`. -/
def TxIn.from_dict (r : TxInRec) : Option TxIn := do
  let op ← OutPoint.from_dict r.outpoint
  let sig ← a2b_hex r.script_sig
  pure ⟨op, sig, r.sequence⟩

/-- `TxOut.from_dict`. -/
def TxOut.from_dict (r : TxOutRec) : Option TxOut := do
  let spk ← a2b_hex r.script_pubkey
  pure ⟨r.value, spk⟩

/-- `Tx.from_dict`. -/
def Tx.from_dict (r : TxRec) : Option Tx := do
  let ins ← r.tx_ins.mapM TxIn.from_dict
  let outs ← r.tx_outs.mapM TxOut.from_dict
  pure ⟨r.version, ins, outs, r.locktime⟩

/-- The field-shaping part of `Block.from_dict`: hex-decode the two hash
fields and reverse them (`binascii.a2b_hex(...)[::-1]`), decode each
transaction record. -/
def block_decode_core (r : BlockRec) : Except String Block :=
  match a2b_hex r.hash_prev_block, a2b_hex r.hash_merkle_root,
      r.transactions.mapM Tx.from_dict with
  | some hp, some mr, some txs =>
    .ok ⟨r.version, hp.reverse, mr.reverse, r.time, r.bits, r.nonce, txs⟩
  | _, _, _ => .error "binascii.Error"

/-- The optional `block_hash` argument of `Block.from_dict`: a hex string or
raw bytes. -/
inductive HashArg where
  | hexStr (s : String)
  | raw (b : List Nat)
deriving DecidableEq, Repr

/-- Python truthiness of the `block_hash` argument (`if block_hash:`). -/
def HashArg.truthy : HashArg → Bool
  | .hexStr s => !s.isEmpty
  | .raw b => !b.isEmpty

/-- The byte form the check compares with: hex strings are `a2b_hex`-decoded,
raw bytes used as given. -/
def HashArg.bytes : HashArg → Option (List Nat)
  | .hexStr s => a2b_hex s
  | .raw b => some b

/-- `Block.from_dict`: decode the record, then, when a truthy expected hash
is supplied, compare its byte reversal with the recomputed header hash and
raise `"Block data is invalid!"` on mismatch. -/
def Block.from_dict (r : BlockRec) (bh : Option HashArg) : Except String Block := do
  let blk ← block_decode_core r
  match bh with
  | none => pure blk
  | some arg =>
    if arg.truthy then
      match arg.bytes with
      | none => .error "binascii.Error"
      | some bs =>
        if bs.reverse ≠ blk.block_hash then .error "Block data is invalid!"
        else pure blk
    else pure blk

/-! ## `hb/address.py` -/

/-- The base58 alphabet `__b58chars`, as byte values. -/
def b58chars : List Nat :=
  [49, 50, 51, 52, 53, 54, 55, 56, 57,
   65, 66, 67, 68, 69, 70, 71, 72, 74, 75, 76, 77, 78, 80, 81, 82, 83, 84,
   85, 86, 87, 88, 89, 90,
   97, 98, 99, 100, 101, 102, 103, 104, 105, 106, 107, 109, 110, 111, 112,
   113, 114, 115, 116, 117, 118, 119, 120, 121, 122]

def find_index (x : Nat) : List Nat → Option Nat
  | [] => none
  | c :: rest => if c = x then some 0 else (find_index x rest).map (· + 1)

/-- `chars.find(bytes([c]))` on the alphabet: index of `c`, or -1 → modelled
`none`. -/
def b58_digit (c : Nat) : Option Nat := find_index c b58chars

/-- The `for (i, c) in enumerate(v[::-1]): long_value += digit * (58 ** i)`
loop: the base-58 value of `v` read big-endian (last character has weight
`58^0`), raising `ValueError` on a character outside the alphabet. -/
def b58_long_value (acc : Nat) : List Nat → Except String Nat
  | [] => .ok acc
  | c :: rest =>
    match b58_digit c with
    | some d => b58_long_value (acc * 58 + d) rest
    | none => .error "ValueError: Forbidden character"

/-- The `while long_value >= 256` loop: little-endian bytes of `long_value`,
always at least one byte. -/
def le_bytes_min1_fuel : Nat → Nat → List Nat
  | 0, n => [n]
  | fuel + 1, n => if n < 256 then [n] else n % 256 :: le_bytes_min1_fuel fuel (n / 256)

def le_bytes_min1 (n : Nat) : List Nat := le_bytes_min1_fuel n n

def count_leading (x : Nat) : List Nat → Nat
  | [] => 0
  | c :: rest => if c = x then count_leading x rest + 1 else 0

/-- `address.base58_decode`: `.ok none` models Python returning `None` when
the decoded length differs from the requested `length`. -/
def base58_decode (v : List Nat) (length : Option Nat) : Except String (Option (List Nat)) := do
  let long_value ← b58_long_value 0 v
  let result := le_bytes_min1 long_value ++ List.replicate (count_leading 49 v) 0
  match length with
  | some len => if result.length ≠ len then pure none else pure (some result.reverse)
  | none => pure (some result.reverse)

/-- `address.b58_address_to_hash160`.  `addr.encode("ascii")` turns the
string into bytes (error on non-ASCII); `len(None)` raises `TypeError` when
`base58_decode` returned `None`. -/
def b58_address_to_hash160 (addr : String) : Except String (Nat × List Nat) := do
  if addr.toList.any (fun c => 128 ≤ c.toNat) then .error "UnicodeEncodeError"
  else
    let dec ← base58_decode (addr.toList.map Char.toNat) (some 25)
    match dec with
    | none => .error "TypeError: object of type NoneType has no len()"
    | some bs =>
      if bs.length ≠ 21 then
        .error "expected 21 payload bytes in base58 address"
      else .ok (bs.headD 0, (bs.drop 1).take 20)

/-- Sanity check against the FIPS 180-4 test vector for "abc". -/
theorem sha256_vector_abc :
    sha256 [0x61, 0x62, 0x63] =
      [0xba, 0x78, 0x16, 0xbf, 0x8f, 0x01, 0xcf, 0xea, 0x41, 0x41, 0x40, 0xde,
       0x5d, 0xae, 0x22, 0x23, 0xb0, 0x03, 0x61, 0xa3, 0x96, 0x17, 0x7a, 0x9c,
       0xb4, 0x10, 0xff, 0x61, 0xf2, 0x00, 0x15, 0xad] := by decide

/-! ## Concrete blocks and records used as witnesses/counterexamples -/

/-- A block whose bits decode to the largest representable target
(`0x7fffff * 2^224`); nonce 253 is the smallest nonce whose header hash falls
below that target. -/
def mine_block : Block :=
  ⟨1, List.replicate 32 0, List.replicate 32 0, 0, 0x1f7fffff, 0, []⟩

/-- Same header but `time = 502`: the hash at nonce `0xfffffffe` is not below
the target while the hash at nonce `0xffffffff` is. -/
def skip_block : Block :=
  ⟨1, List.replicate 32 0, List.replicate 32 0, 502, 0x1f7fffff, 0, []⟩

def tx_empty : Tx := ⟨1, [], [], 0⟩

def block_one_tx : Block :=
  ⟨1, List.replicate 32 0, List.replicate 32 0, 0, 1, 0, [tx_empty]⟩

def block_no_tx : Block :=
  ⟨1, List.replicate 32 0, List.replicate 32 0, 0, 1, 0, []⟩

/-! ## C2 -/

/-- C2: for every block, `block_hash()` equals the double SHA-256 of the
header-only encoding (version, previous block hash, merkle root, time, bits,
nonce, integers little-endian), and its value is unchanged by any change to
the transactions list while the six header fields are held fixed. -/
theorem c2_block_hash_header_only (v : Nat) (hp mr : List Nat) (ti bi no : Nat)
    (txs txs2 : List Tx) :
    Block.block_hash ⟨v, hp, mr, ti, bi, no, txs⟩ =
      sha256d (to_bytes_le v 4 ++ hp ++ mr ++ to_bytes_le ti 4 ++
        to_bytes_le bi 4 ++ to_bytes_le no 4)
    ∧ Block.block_hash ⟨v, hp, mr, ti, bi, no, txs⟩ =
        Block.block_hash ⟨v, hp, mr, ti, bi, no, txs2⟩ :=
  ⟨rfl, rfl⟩

/-! ## C3 -/

/-- C3 (code bug): `Block.as_bin` concatenates the `Tx` *object* — not its
encoding — onto the byte string (`block_bin += tx`), which raises `TypeError`
for every non-empty transaction list; only a block with zero transactions
yields the encoding the claim (and the function's own docstring) describes. -/
theorem c3_as_bin_crashes_on_transactions :
    Block.as_bin block_one_tx = none
    ∧ block_one_tx.transactions.length = 1
    ∧ Block.as_bin block_no_tx = some (Block.as_bin_claimed block_no_tx) := by
  decide

/-! ## C6 -/

/-- C6: for every 32-bit bits value with exponent `e = bits >>> 24` and
mantissa `m = bits &&& 0xffffff`, `bits_to_target` returns `m <<< (8*(e-3))`
exactly when `e ∈ [3, 31]` and `m ∈ [0x8000, 0x7fffff]`, and raises a format
error otherwise; in particular `bits_to_target 0x1d00ffff = 0xffff * 2^208`. -/
theorem c6_bits_to_target_compact (bits : Nat) (h32 : bits < 2 ^ 32) :
    ((0x03 ≤ bits >>> 24 ∧ bits >>> 24 ≤ 0x1f ∧
      0x8000 ≤ bits &&& 0xffffff ∧ bits &&& 0xffffff ≤ 0x7fffff) →
      bits_to_target bits = .ok ((bits &&& 0xffffff) <<< (8 * (bits >>> 24 - 3))))
    ∧ (¬(0x03 ≤ bits >>> 24 ∧ bits >>> 24 ≤ 0x1f ∧
        0x8000 ≤ bits &&& 0xffffff ∧ bits &&& 0xffffff ≤ 0x7fffff) →
        (bits_to_target bits).isOk = false)
    ∧ bits_to_target 0x1d00ffff = .ok (0x00ffff * 2 ^ 208) := by
  have h8 : bits >>> 24 < 2 ^ 8 := by
    rw [Nat.shiftRight_eq_div_pow]
    have h1 : (2 : Nat) ^ 8 = 256 := by norm_num
    have h2 : (2 : Nat) ^ 24 = 16777216 := by norm_num
    have h3 : (2 : Nat) ^ 32 = 4294967296 := by norm_num
    rw [h1, h2]; rw [h3] at h32; omega
  have hmask : (bits >>> 24) &&& 0xff = bits >>> 24 := by
    have : (0xff : Nat) = 2 ^ 8 - 1 := by norm_num
    rw [this]
    exact Nat.and_pow_two_sub_one_of_lt_two_pow h8
  refine ⟨?_, ?_, by decide⟩
  · rintro ⟨h1, h2, h3, h4⟩
    simp only [bits_to_target, hmask]
    rw [if_pos ⟨h1, h2⟩, if_pos ⟨h3, h4⟩]
  · intro hn
    simp only [bits_to_target, hmask]
    by_cases hc1 : 0x03 ≤ bits >>> 24 ∧ bits >>> 24 ≤ 0x1f
    · rw [if_pos hc1]
      by_cases hc2 : 0x8000 ≤ bits &&& 0xffffff ∧ bits &&& 0xffffff ≤ 0x7fffff
      · exact absurd ⟨hc1.1, hc1.2, hc2.1, hc2.2⟩ hn
      · rw [if_neg hc2]; rfl
    · rw [if_neg hc1]; rfl

/-- Witness for C6: applying the theorem at `0x1d00ffff` (valid) and at
`0x02008000` (exponent 2, out of range). -/
theorem c6_witness :
    bits_to_target 0x1d00ffff = .ok ((0x1d00ffff &&& 0xffffff) <<< (8 * (0x1d00ffff >>> 24 - 3)))
    ∧ (bits_to_target 0x02008000).isOk = false := by
  refine ⟨(c6_bits_to_target_compact 0x1d00ffff (by norm_num)).1 (by decide), ?_⟩
  exact (c6_bits_to_target_compact 0x02008000 (by norm_num)).2.1 (by decide)

/-! ## C5 -/

/-- 1 for `some`, 0 for `none`: counts the pending unpaired hash. -/
def obit : Option (List Nat) → Nat
  | none => 0
  | some _ => 1

theorem mm_loop_len (l : List (List Nat)) :
    ∀ (one : Option (List Nat)) (acc : List (List Nat)),
      2 * (mm_loop one l acc).1.length + obit (mm_loop one l acc).2 =
        2 * acc.length + l.length + obit one := by
  induction l with
  | nil => intro one acc; simp [mm_loop]
  | cons tx rest ih =>
    intro one acc
    match one with
    | some o =>
      have h := ih none (acc ++ [sha256d (o ++ tx)])
      simp only [mm_loop]
      simp only [obit, List.length_append, List.length_cons, List.length_nil] at h ⊢
      omega
    | none =>
      have h := ih (some tx) acc
      simp only [mm_loop]
      simp only [obit, List.length_cons] at h ⊢
      omega

theorem merkle_level_length (l : List (List Nat)) (h : l ≠ []) :
    (merkle_level l).length = (l.length + 1) / 2 := by
  match l with
  | [] => exact absurd rfl h
  | t :: rest =>
    have hl := mm_loop_len rest (some t) []
    simp only [merkle_level]
    match hp : (mm_loop (some t) rest []).2 with
    | none =>
      rw [hp] at hl
      simp only [obit, List.length_nil, List.length_cons] at hl ⊢
      omega
    | some o =>
      rw [hp] at hl
      simp only [obit, List.length_nil, List.length_cons] at hl ⊢
      by_cases he : (mm_loop (some t) rest []).1 = []
      · rw [if_pos he]
        rw [he] at hl
        simp only [List.length_nil, List.length_cons] at hl ⊢
        omega
      · rw [if_neg he]
        simp only [List.length_append, List.length_nil, List.length_cons] at hl ⊢
        omega

theorem merkle_level_ne_nil (l : List (List Nat)) (h : l ≠ []) :
    merkle_level l ≠ [] := by
  have hlen := merkle_level_length l h
  have : 1 ≤ l.length := List.length_pos.mpr h
  intro hc
  rw [hc] at hlen
  simp only [List.length_nil] at hlen
  omega

theorem made_merkle_root_fuel_total (fuel : Nat) :
    ∀ l : List (List Nat), l ≠ [] → l.length ≤ fuel →
      (made_merkle_root_fuel fuel l).isSome := by
  induction fuel with
  | zero =>
    intro l h hlen
    have : 1 ≤ l.length := List.length_pos.mpr h
    omega
  | succ fuel ih =>
    intro l h hlen
    match l with
    | t :: rest =>
      simp only [made_merkle_root_fuel]
      by_cases hc : 2 ≤ (merkle_level (t :: rest)).length
      · rw [if_pos hc]
        have hne : merkle_level (t :: rest) ≠ [] := by
          intro hnil; rw [hnil] at hc; simp at hc
        have hlev := merkle_level_length (t :: rest) (by simp)
        apply ih _ hne
        simp only [List.length_cons] at hlen hlev
        omega
      · rw [if_neg hc]
        have hne := merkle_level_ne_nil (t :: rest) (by simp)
        match hm : merkle_level (t :: rest) with
        | [] => exact absurd hm hne
        | x :: xs => simp [List.head?]

/-- C5: `made_merkle_root` pairs adjacent leaves with `sha256d(left++right)`,
duplicates an odd leftover against itself unless it is the sole item of a
level with no pairings (then it passes through), and reduces every non-empty
leaf list to a single root; in particular the root of `[h]` is `h`, of
`[a,b]` is `sha256d(a++b)`, and of `[a,b,c]` is
`sha256d(sha256d(a++b) ++ sha256d(c++c))`. -/
theorem c5_made_merkle_root_shape :
    (∀ h : List Nat, made_merkle_root [h] = some h)
    ∧ (∀ a b : List Nat, made_merkle_root [a, b] = some (sha256d (a ++ b)))
    ∧ (∀ a b c : List Nat, made_merkle_root [a, b, c] =
        some (sha256d (sha256d (a ++ b) ++ sha256d (c ++ c))))
    ∧ (∀ l : List (List Nat), l ≠ [] → (made_merkle_root l).isSome) := by
  refine ⟨?_, ?_, ?_, ?_⟩
  · intro h
    simp [made_merkle_root, made_merkle_root_fuel, merkle_level, mm_loop, List.head?]
  · intro a b
    simp [made_merkle_root, made_merkle_root_fuel, merkle_level, mm_loop, List.head?]
  · intro a b c
    simp [made_merkle_root, made_merkle_root_fuel, merkle_level, mm_loop, List.head?]
  · intro l h
    exact made_merkle_root_fuel_total l.length l h le_rfl

/-- Witness for C5: the totality part applied to a concrete five-leaf list
(and the three-leaf shape at concrete single-byte leaves). -/
theorem c5_witness :
    (made_merkle_root [[0], [1], [2], [3], [4]]).isSome
    ∧ made_merkle_root [[0], [1], [2]] =
        some (sha256d (sha256d ([0] ++ [1]) ++ sha256d ([2] ++ [2]))) :=
  ⟨c5_made_merkle_root_shape.2.2.2 [[0], [1], [2], [3], [4]] (by decide),
   c5_made_merkle_root_shape.2.2.1 [0] [1] [2]⟩

/-! ## Mining: C1, C8, C10 -/

theorem mining_attempt_none_iff (b : Block) (t s : Nat) :
    mining_attempt b t s = none ↔
      ∀ n, s ≤ n → n ≤ 0xfffffffe → ¬ block_hash_int (set_nonce b n) < t := by
  unfold mining_attempt attempt_nonces
  rw [List.findSome?_eq_none_iff]
  constructor
  · intro h n h1 h2 hlt
    have hm : n ∈ List.range' s (0xffffffff - s) := List.mem_range'_1.mpr (by omega)
    have hn := h n hm
    rw [if_pos hlt] at hn
    exact Option.noConfusion hn
  · intro h n hm
    have hb := List.mem_range'_1.mp hm
    by_cases hlt : t > block_hash_int (set_nonce b n)
    · exact absurd hlt (h n (by omega) (by omega))
    · rw [if_neg hlt]

theorem mining_attempt_some (b : Block) (t s : Nat) (bf : Block)
    (h : mining_attempt b t s = some bf) :
    ∃ n, s ≤ n ∧ n ≤ 0xfffffffe ∧ bf = set_nonce b n ∧
      block_hash_int (set_nonce b n) < t := by
  unfold mining_attempt attempt_nonces at h
  obtain ⟨n, hm, hf⟩ := List.exists_of_findSome?_eq_some h
  have hb := List.mem_range'_1.mp hm
  by_cases hlt : t > block_hash_int (set_nonce b n)
  · rw [if_pos hlt] at hf
    exact ⟨n, by omega, by omega, (Option.some.inj hf).symm, hlt⟩
  · rw [if_neg hlt] at hf
    exact Option.noConfusion hf

theorem mining_block_cons (b : Block) (t : Nat) (ht : bits_to_target b.bits = .ok t)
    (s : Nat) (rest : List Nat) :
    mining_block b (s :: rest) =
      match mining_attempt b t s with
      | some found => .ok (some found)
      | none => mining_block b rest := by
  conv_lhs => rw [mining_block]
  rw [ht]

theorem mining_block_nil (b : Block) (t : Nat) (ht : bits_to_target b.bits = .ok t) :
    mining_block b [] = .ok none := by
  rw [mining_block, ht]

theorem mining_block_isOk (b : Block) (t : Nat) (ht : bits_to_target b.bits = .ok t) :
    ∀ starts : List Nat, (mining_block b starts).isOk = true := by
  intro starts
  induction starts with
  | nil => rw [mining_block_nil b t ht]; rfl
  | cons s rest ih =>
    rw [mining_block_cons b t ht]
    match mining_attempt b t s with
    | some found => rfl
    | none => exact ih

theorem mining_block_some (b : Block) (starts : List Nat) (bf : Block)
    (h : mining_block b starts = .ok (some bf)) :
    ∃ t n, bits_to_target b.bits = .ok t ∧ bf = set_nonce b n ∧
      block_hash_int (set_nonce b n) < t := by
  induction starts with
  | nil =>
    exfalso
    rw [mining_block] at h
    match hbt : bits_to_target b.bits with
    | .error e => rw [hbt] at h; exact Except.noConfusion h
    | .ok t => rw [hbt] at h; exact Option.noConfusion (Except.ok.inj h)
  | cons s rest ih =>
    match hbt : bits_to_target b.bits with
    | .error e =>
      rw [mining_block, hbt] at h
      exact Except.noConfusion h
    | .ok t =>
      rw [mining_block_cons b t hbt] at h
      match hatt : mining_attempt b t s with
      | some found =>
        rw [hatt] at h
        obtain ⟨n, _, _, hbf, hlt⟩ := mining_attempt_some b t s found hatt
        have hbff : bf = found := (Option.some.inj (Except.ok.inj h)).symm
        exact ⟨t, n, rfl, hbff.trans hbf, hlt⟩
      | none =>
        rw [hatt] at h
        obtain ⟨t2, n, ht2, hbf, hlt⟩ := ih h
        have hteq : t2 = t := Except.ok.inj (ht2.symm.trans hbt)
        exact ⟨t, n, rfl, hbf, hteq ▸ hlt⟩

/-- C1 (amended): whenever `mining_block` returns a block, its recomputed
header hash read as a big-endian integer is strictly below the decoded
target; and a single attempt succeeds exactly when some nonce in its upward
range `[start, 2^32-2]` hashes below the target. -/
theorem c1_mining_hash_below_target (b : Block) (starts : List Nat) (bf : Block)
    (t : Nat) (ht : bits_to_target b.bits = .ok t) :
    (mining_block b starts = .ok (some bf) → block_hash_int bf < t)
    ∧ (∀ s : Nat, (mining_attempt b t s).isSome = true ↔
        ∃ n, s ≤ n ∧ n ≤ 0xfffffffe ∧ block_hash_int (set_nonce b n) < t) := by
  constructor
  · intro h
    obtain ⟨t2, n, ht2, hbf, hlt⟩ := mining_block_some b starts bf h
    have hteq : t2 = t := Except.ok.inj (ht2.symm.trans ht)
    rw [hbf]
    exact hteq ▸ hlt
  · intro s
    constructor
    · intro hs
      rcases hopt : mining_attempt b t s with _ | bf2
      · rw [hopt] at hs
        exact absurd hs (by simp)
      · obtain ⟨n, h1, h2, _, hlt⟩ := mining_attempt_some b t s bf2 hopt
        exact ⟨n, h1, h2, hlt⟩
    · rintro ⟨n, h1, h2, hlt⟩
      rcases hopt : mining_attempt b t s with _ | bf2
      · exact absurd hlt ((mining_attempt_none_iff b t s).mp hopt n h1 h2)
      · rfl

/-- Counterexample for C1 as stated: `mine_block`'s bits decode to the
largest representable ("trivially large") target and nonce 253 qualifies,
yet with the (legal) random start `0xffffffff` the single attempt examines
no nonce at all and `mining_block` does not succeed within one attempt. -/
theorem c1_counterexample :
    bits_to_target mine_block.bits = .ok (0x7fffff * 2 ^ 224)
    ∧ block_hash_int (set_nonce mine_block 253) < 0x7fffff * 2 ^ 224
    ∧ mining_attempt mine_block (0x7fffff * 2 ^ 224) 0xffffffff = none
    ∧ mining_block mine_block [0xffffffff] = .ok none := by
  decide

/-- Witness for C1: a concrete successful mining run (start = nonce 253)
whose result hash is below the decoded target. -/
theorem c1_witness :
    block_hash_int (set_nonce mine_block 253) < 0x7fffff * 2 ^ 224 :=
  (c1_mining_hash_below_target mine_block [253] (set_nonce mine_block 253)
    (0x7fffff * 2 ^ 224) (by decide)).1 (by decide)

/-- C8 (amended): a single attempt tries exactly the nonces from its start up
to and including `2^32 - 2` (Python `range(start, 0xffffffff)` excludes the
stop value), and when that range is exhausted without a qualifying hash the
engine moves to the next random start instead of raising or failing. -/
theorem c8_nonce_range_and_retry (b : Block) (t s : Nat) (rest : List Nat)
    (ht : bits_to_target b.bits = .ok t) :
    (mining_attempt b t s = none ↔
      ∀ n, s ≤ n → n ≤ 0xfffffffe → ¬ block_hash_int (set_nonce b n) < t)
    ∧ (mining_attempt b t s = none →
        mining_block b (s :: rest) = mining_block b rest)
    ∧ (mining_block b (s :: rest)).isOk = true := by
  refine ⟨mining_attempt_none_iff b t s, ?_, mining_block_isOk b t ht (s :: rest)⟩
  intro hnone
  rw [mining_block_cons b t ht, hnone]

/-- Counterexample for C8 as stated: starting at `0xfffffffe`, the attempt
fails even though nonce `0xffffffff` — which the claim says is tried — has a
qualifying hash; the loop never examines `2^32 - 1`. -/
theorem c8_counterexample :
    bits_to_target skip_block.bits = .ok (0x7fffff * 2 ^ 224)
    ∧ block_hash_int (set_nonce skip_block 0xffffffff) < 0x7fffff * 2 ^ 224
    ∧ mining_attempt skip_block (0x7fffff * 2 ^ 224) 0xfffffffe = none := by
  decide

/-- Witness for C8: the amended theorem applied at start `0xffffffff`, whose
upward range is empty, forcing the silent retry step. -/
theorem c8_witness :
    mining_attempt skip_block (0x7fffff * 2 ^ 224) 0xffffffff = none
    ∧ mining_block skip_block [0xffffffff] = mining_block skip_block [] := by
  have h := c8_nonce_range_and_retry skip_block (0x7fffff * 2 ^ 224) 0xffffffff []
    (by decide)
  have hn := h.1.mpr (by intro n h1 h2 hP; omega)
  exact ⟨hn, h.2.1 hn⟩

/-- C10: `mining_block` changes only the nonce: version, previous block
hash, merkle root, time, bits and transactions of the returned block are
those of the input block. -/
theorem c10_mining_frame (b : Block) (starts : List Nat) (bf : Block)
    (h : mining_block b starts = .ok (some bf)) :
    bf.version = b.version ∧ bf.hash_prev_block = b.hash_prev_block
    ∧ bf.hash_merkle_root = b.hash_merkle_root ∧ bf.time = b.time
    ∧ bf.bits = b.bits ∧ bf.transactions = b.transactions := by
  obtain ⟨t, n, _, hbf, _⟩ := mining_block_some b starts bf h
  rw [hbf]
  exact ⟨rfl, rfl, rfl, rfl, rfl, rfl⟩

/-- Witness for C10: the frame condition at the concrete mining run from
start 253. -/
theorem c10_witness :
    (set_nonce mine_block 253).version = mine_block.version
    ∧ (set_nonce mine_block 253).hash_prev_block = mine_block.hash_prev_block
    ∧ (set_nonce mine_block 253).hash_merkle_root = mine_block.hash_merkle_root
    ∧ (set_nonce mine_block 253).time = mine_block.time
    ∧ (set_nonce mine_block 253).bits = mine_block.bits
    ∧ (set_nonce mine_block 253).transactions = mine_block.transactions :=
  c10_mining_frame mine_block [253] (set_nonce mine_block 253) (by decide)

/-! ## C4 -/

/-- C4: for every block record and truthy expected hash (hex string or raw
bytes, given in reversed display order), `Block.from_dict` returns the
decoded block exactly when the reversal of the expected bytes equals the
recomputed header hash, and raises the integrity error (returning no block)
on any mismatch. -/
theorem c4_from_dict_integrity (r : BlockRec) (e : HashArg) (blk : Block)
    (bs : List Nat)
    (hd : block_decode_core r = .ok blk)
    (htr : e.truthy = true)
    (hb : e.bytes = some bs) :
    (bs.reverse = blk.block_hash → Block.from_dict r (some e) = .ok blk)
    ∧ (bs.reverse ≠ blk.block_hash → (Block.from_dict r (some e)).isOk = false) := by
  have key : Block.from_dict r (some e) =
      if bs.reverse ≠ blk.block_hash then .error "Block data is invalid!"
      else .ok blk := by
    unfold Block.from_dict
    rw [hd]
    simp only [Bind.bind, Except.bind, htr, hb, if_true, pure, Except.pure]
  constructor
  · intro hh
    rw [key, if_neg (fun hc => hc hh)]
  · intro hh
    rw [key, if_pos hh]
    rfl

def c4_rec : BlockRec :=
  ⟨1,
   "0000000000000000000000000000000000000000000000000000000000000000",
   "0000000000000000000000000000000000000000000000000000000000000000",
   0, 1, 0, []⟩

def c4_block : Block := ⟨1, List.replicate 32 0, List.replicate 32 0, 0, 1, 0, []⟩

/-- The header hash of `c4_block` in reversed (display) byte order. -/
def c4_good_bytes : List Nat :=
  [0x7d, 0x30, 0x6d, 0x58, 0xd6, 0x8a, 0x58, 0xf1, 0x90, 0xb2, 0xdf, 0xce,
   0x6f, 0xfb, 0xa9, 0x20, 0x46, 0x53, 0x16, 0xf5, 0x6d, 0x70, 0xad, 0x7b,
   0xa7, 0xd8, 0xae, 0x77, 0xa3, 0x28, 0x4b, 0x2c]

/-- Same with the last byte corrupted. -/
def c4_bad_bytes : List Nat :=
  [0x7d, 0x30, 0x6d, 0x58, 0xd6, 0x8a, 0x58, 0xf1, 0x90, 0xb2, 0xdf, 0xce,
   0x6f, 0xfb, 0xa9, 0x20, 0x46, 0x53, 0x16, 0xf5, 0x6d, 0x70, 0xad, 0x7b,
   0xa7, 0xd8, 0xae, 0x77, 0xa3, 0x28, 0x4b, 0x2d]

def c4_good : HashArg :=
  .hexStr "7d306d58d68a58f190b2dfce6ffba920465316f56d70ad7ba7d8ae77a3284b2c"

def c4_bad : HashArg :=
  .hexStr "7d306d58d68a58f190b2dfce6ffba920465316f56d70ad7ba7d8ae77a3284b2d"

/-- Witness for C4: a concrete record accepted with its true declared hash
and rejected once the declared hash is corrupted. -/
theorem c4_witness :
    Block.from_dict c4_rec (some c4_good) = .ok c4_block
    ∧ (Block.from_dict c4_rec (some c4_bad)).isOk = false :=
  ⟨(c4_from_dict_integrity c4_rec c4_good c4_block c4_good_bytes
      (by decide) (by decide) (by decide)).1 (by decide),
   (c4_from_dict_integrity c4_rec c4_bad c4_block c4_bad_bytes
      (by decide) (by decide) (by decide)).2 (by decide)⟩

/-! ## C9 -/

/-- C9 (code bug): `b58_address_to_hash160` never verifies or strips the
checksum and, because it asks `base58_decode` for 25 bytes and then demands
21, it raises "expected 21 payload bytes" for every well-formed base58
address — here the standard address for a 20-zero-byte hash160, whose decode
is exactly 25 bytes with a matching 4-byte checksum. -/
theorem c9_address_decode_always_fails :
    b58_address_to_hash160 "1111111111111111111114oLvT2" =
      .error "expected 21 payload bytes in base58 address"
    ∧ base58_decode ("1111111111111111111114oLvT2".toList.map Char.toNat) (some 25) =
        .ok (some (List.replicate 21 0 ++ [148, 160, 9, 17]))
    ∧ (sha256d (List.replicate 21 0)).take 4 = [148, 160, 9, 17] := by
  decide

/-! ## C7: compact-bits round trip and the retarget policy -/

theorem byte_size_fuel_zero (f : Nat) : byte_size_fuel f 0 = 0 := by
  cases f <;> rfl

theorem byte_size_fuel_char :
    ∀ (k f n : Nat), n ≤ f → 256 ^ k ≤ n → n < 256 ^ (k + 1) →
      byte_size_fuel f n = k + 1 := by
  intro k
  induction k with
  | zero =>
    intro f n hf h1 h2
    norm_num at h1 h2
    obtain ⟨n2, rfl⟩ : ∃ n2, n = n2 + 1 := ⟨n - 1, by omega⟩
    obtain ⟨f2, rfl⟩ : ∃ f2, f = f2 + 1 := ⟨f - 1, by omega⟩
    show byte_size_fuel f2 ((n2 + 1) / 256) + 1 = 1
    rw [Nat.div_eq_of_lt (by omega), byte_size_fuel_zero]
  | succ k ih =>
    intro f n hf h1 h2
    have hpow : (256 : Nat) ≤ 256 ^ (k + 1) := Nat.le_self_pow (Nat.succ_ne_zero k) 256
    have h256 : 256 ≤ n := le_trans hpow h1
    obtain ⟨n2, rfl⟩ : ∃ n2, n = n2 + 1 := ⟨n - 1, by omega⟩
    obtain ⟨f2, rfl⟩ : ∃ f2, f = f2 + 1 := ⟨f - 1, by omega⟩
    show byte_size_fuel f2 ((n2 + 1) / 256) + 1 = k + 1 + 1
    rw [ih f2 ((n2 + 1) / 256) (by omega)
      ((Nat.le_div_iff_mul_le (by norm_num)).mpr (by rw [← pow_succ]; exact h1))
      ((Nat.div_lt_iff_lt_mul (by norm_num)).mpr (by rw [← pow_succ]; exact h2))]

theorem byte_size_of_range (k n : Nat) (h1 : 256 ^ k ≤ n) (h2 : n < 256 ^ (k + 1)) :
    byte_size n = k + 1 :=
  byte_size_fuel_char k n n le_rfl h1 h2

theorem target_to_bits_compact (e m : Nat) (he1 : 3 ≤ e) (he2 : e ≤ 31)
    (hm1 : 0x8000 ≤ m) (hm2 : m ≤ 0x7fffff) :
    target_to_bits (m <<< (8 * (e - 3))) = (e <<< 24) + m := by
  have hpj : ∀ j : Nat, (2 : Nat) ^ (8 * j) = 256 ^ j := by
    intro j; rw [Nat.pow_mul]
  have hppos : ∀ j : Nat, 0 < (256 : Nat) ^ j := fun j => Nat.pos_pow_of_pos j (by norm_num)
  rw [Nat.shiftLeft_eq, hpj]
  simp only [target_to_bits]
  by_cases hm : m ≤ 0xffff
  · -- two significant bytes in the mantissa: byte size of the target is (e-3)+2
    have hsize : byte_size (m * 256 ^ (e - 3)) = (e - 3) + 2 := by
      apply byte_size_of_range
      · rw [pow_succ, Nat.mul_comm (256 ^ (e - 3)) 256]
        exact Nat.mul_le_mul_right _ (by omega)
      · have ha : m * 256 ^ (e - 3) < 65536 * 256 ^ (e - 3) :=
          (Nat.mul_lt_mul_right (hppos _)).mpr (by omega)
        have hb : (65536 : Nat) * 256 ^ (e - 3) = 256 ^ ((e - 3) + 1 + 1) := by
          rw [pow_add, pow_add]; ring
        rw [← hb]
        exact ha
    rw [hsize]
    have hmant :
        (if (e - 3) + 2 ≤ 3 then (m * 256 ^ (e - 3)) <<< (8 * (3 - ((e - 3) + 2)))
         else (m * 256 ^ (e - 3)) >>> (8 * ((e - 3) + 2 - 3))) = m * 256 := by
      by_cases hjle : (e - 3) + 2 ≤ 3
      · rw [if_pos hjle, Nat.shiftLeft_eq, hpj]
        have hee : e = 3 ∨ e = 4 := by omega
        rcases hee with rfl | rfl <;> norm_num
      · rw [if_neg hjle]
        rw [Nat.shiftRight_eq_div_pow, hpj]
        have hfact : m * 256 ^ (e - 3) = (m * 256) * 256 ^ ((e - 3) + 2 - 3) := by
          rw [mul_assoc, ← pow_succ']
          have hexp : (e - 3) + 2 - 3 + 1 = e - 3 := by omega
          rw [hexp]
        rw [hfact, Nat.mul_div_cancel _ (hppos _)]
    rw [hmant]
    rw [if_pos (by omega : 0x800000 ≤ m * 256)]
    rw [Nat.shiftRight_eq_div_pow]
    have hdiv : m * 256 / 2 ^ 8 = m := by norm_num
    rw [hdiv]
    have hexp2 : (e - 3) + 2 + 1 = e := by omega
    rw [hexp2]
  · -- three significant bytes in the mantissa: byte size is (e-3)+3
    have hsize : byte_size (m * 256 ^ (e - 3)) = (e - 3) + 3 := by
      have h3 : byte_size (m * 256 ^ (e - 3)) = ((e - 3) + 2) + 1 := by
        apply byte_size_of_range
        · have hb : (256 : Nat) ^ ((e - 3) + 2) = 65536 * 256 ^ (e - 3) := by
            rw [pow_add]; ring
          rw [hb, Nat.mul_comm 65536 (256 ^ (e - 3)), Nat.mul_comm m (256 ^ (e - 3))]
          exact Nat.mul_le_mul_left _ (by omega)
        · have ha : m * 256 ^ (e - 3) < 16777216 * 256 ^ (e - 3) :=
            (Nat.mul_lt_mul_right (hppos _)).mpr (by omega)
          have hb : (16777216 : Nat) * 256 ^ (e - 3) = 256 ^ ((e - 3) + 2 + 1) := by
            rw [pow_add, pow_add]; ring
          rw [← hb]
          exact ha
      rw [h3]
    rw [hsize]
    have hmant :
        (if (e - 3) + 3 ≤ 3 then (m * 256 ^ (e - 3)) <<< (8 * (3 - ((e - 3) + 3)))
         else (m * 256 ^ (e - 3)) >>> (8 * ((e - 3) + 3 - 3))) = m := by
      by_cases hjle : (e - 3) + 3 ≤ 3
      · rw [if_pos hjle]
        have he3 : e = 3 := by omega
        subst he3
        norm_num [Nat.shiftLeft_eq]
      · rw [if_neg hjle]
        rw [Nat.shiftRight_eq_div_pow, hpj]
        rw [show (e - 3) + 3 - 3 = e - 3 from rfl]
        rw [Nat.mul_div_cancel _ (hppos _)]
    rw [hmant]
    rw [if_neg (by omega : ¬ 0x800000 ≤ m)]
    have hexp2 : (e - 3) + 3 = e := by omega
    rw [hexp2]

theorem bits_to_target_compact (e m : Nat) (he1 : 3 ≤ e) (he2 : e ≤ 31)
    (hm1 : 0x8000 ≤ m) (hm2 : m ≤ 0x7fffff) :
    bits_to_target ((e <<< 24) + m) = .ok (m <<< (8 * (e - 3))) := by
  have hsh : (e <<< 24) = e * 16777216 := by
    rw [Nat.shiftLeft_eq]
  have h1 : ((e <<< 24) + m) >>> 24 = e := by
    rw [hsh, Nat.shiftRight_eq_div_pow]
    have : (2 : Nat) ^ 24 = 16777216 := by norm_num
    rw [this]
    omega
  have h3 : (((e <<< 24) + m) >>> 24) &&& 0xff = e := by
    rw [h1, show (0xff : Nat) = 2 ^ 8 - 1 from by norm_num]
    have h28 : (2 : Nat) ^ 8 = 256 := by norm_num
    exact Nat.and_pow_two_sub_one_of_lt_two_pow (by omega)
  have h2 : ((e <<< 24) + m) &&& 0xffffff = m := by
    rw [show (0xffffff : Nat) = 2 ^ 24 - 1 from by norm_num,
      Nat.and_pow_two_sub_one_eq_mod, hsh]
    have : (2 : Nat) ^ 24 = 16777216 := by norm_num
    rw [this]
    omega
  simp only [bits_to_target, h3, h2]
  rw [if_pos ⟨he1, he2⟩, if_pos ⟨hm1, hm2⟩]

/-- Decoded targets survive the compact round trip unchanged:
`bits_to_target (target_to_bits t) = t` for every `t` in the image of
`bits_to_target`. -/
theorem bits_roundtrip (bits t : Nat) (h : bits_to_target bits = .ok t) :
    bits_to_target (target_to_bits t) = .ok t := by
  simp only [bits_to_target] at h
  by_cases hc1 : 0x03 ≤ (bits >>> 24) &&& 0xff ∧ (bits >>> 24) &&& 0xff ≤ 0x1f
  · rw [if_pos hc1] at h
    by_cases hc2 : 0x8000 ≤ bits &&& 0xffffff ∧ bits &&& 0xffffff ≤ 0x7fffff
    · rw [if_pos hc2] at h
      have ht : t = (bits &&& 0xffffff) <<< (8 * (((bits >>> 24) &&& 0xff) - 3)) :=
        (Except.ok.inj h).symm
      rw [ht, target_to_bits_compact _ _ hc1.1 hc1.2 hc2.1 hc2.2]
      exact bits_to_target_compact _ _ hc1.1 hc1.2 hc2.1 hc2.2
    · rw [if_neg hc2] at h
      exact Except.noConfusion h
  · rw [if_neg hc1] at h
    exact Except.noConfusion h

theorem py_get_neg (l : List Block) (k : Nat) (b : Block) (hk1 : 1 ≤ k)
    (hk2 : k ≤ l.length) (h : l[l.length - k]? = some b) :
    py_get l (-(k : Int)) = .ok b := by
  simp only [py_get]
  have hji : (if -(k : Int) < 0 then (l.length : Int) + -(k : Int) else -(k : Int)) =
      (l.length : Int) - k := by
    rw [if_pos (by omega)]
    omega
  rw [hji]
  rw [if_neg (by omega : ¬ ((l.length : Int) - k < 0))]
  have htn : ((l.length : Int) - k).toNat = l.length - k := by omega
  rw [htn, h]

theorem except_bind_ok {ε α β : Type} (f : α → Except ε β) (a : α) :
    Bind.bind (Except.ok a) f = f a := rfl

theorem py_get_last (l : List Block) (b : Block) (h : l.getLast? = some b) :
    py_get l (-1) = .ok b := by
  have hne : l ≠ [] := by
    intro he
    rw [he] at h
    exact Option.noConfusion h
  have hlen : 1 ≤ l.length := List.length_pos.mpr hne
  simp only [py_get]
  rw [if_pos (show (-1 : Int) < 0 by norm_num)]
  rw [if_neg (by omega : ¬ ((l.length : Int) + -1 < 0))]
  have htn : ((l.length : Int) + -1).toNat = l.length - 1 := by omega
  rw [htn, ← List.getLast?_eq_getElem?, h]

/-- C7 (amended): between retarget boundaries `get_target` returns the last
block's decoded target unchanged; on a boundary (length a multiple of N) it
returns `min(max_target, last_target * clamp(actual) / T)` rounded through
the compact representation, where `actual` is the timestamp difference
between the last block and the block N-2 positions back (`blocks[-(N-1)]`,
the first of the last N-1 blocks); a history whose window took exactly `T`
leaves a ceiling-respecting target unchanged, exactly. -/
theorem c7_get_target_policy (N T : Nat) (blocks : List Block) (lastb : Block)
    (hN : 2 ≤ N) (hT : 1 ≤ T) (hne : blocks ≠ [])
    (hlast : blocks.getLast? = some lastb) :
    (¬ blocks.length % N = 0 → get_target N T blocks = bits_to_target lastb.bits)
    ∧ (blocks.length % N = 0 →
        ∀ firstb t, blocks[blocks.length - (N - 1)]? = some firstb →
          bits_to_target lastb.bits = .ok t →
          (get_target N T blocks =
            bits_to_target (target_to_bits (min max_target
              (t * min (max (lastb.time - firstb.time) (T / 4)) (T * 4) / T)))
          ∧ (lastb.time - firstb.time = T → t ≤ max_target →
              get_target N T blocks = .ok t))) := by
  have hlen : 1 ≤ blocks.length := List.length_pos.mpr hne
  have hpg1 : py_get blocks (-1) = .ok lastb := py_get_last blocks lastb hlast
  constructor
  · intro hmod
    unfold get_target
    rw [if_neg hmod]
    rw [hpg1, except_bind_ok]
  · intro hmod firstb t hfirst ht
    have hNle : N ≤ blocks.length :=
      Nat.le_of_dvd (by omega) (Nat.dvd_of_mod_eq_zero hmod)
    have hpgk : py_get blocks (-((N : Int) - 1)) = .ok firstb := by
      have hcast : -((N : Int) - 1) = -(((N - 1 : Nat) : Int)) := by
        push_cast [Nat.cast_sub (by omega : 1 ≤ N)]
        ring
      rw [hcast]
      exact py_get_neg blocks (N - 1) firstb (by omega) (by omega) hfirst
    have hb_eq : get_target N T blocks =
        bits_to_target (target_to_bits (min max_target
          (t * min (max (lastb.time - firstb.time) (T / 4)) (T * 4) / T))) := by
      unfold get_target
      rw [if_pos hmod]
      rw [hpgk, except_bind_ok, hpg1, except_bind_ok, ht, except_bind_ok]
    refine ⟨hb_eq, ?_⟩
    intro heq hle
    rw [hb_eq, heq]
    rw [Nat.max_eq_left (Nat.div_le_self T 4)]
    rw [Nat.min_eq_left (by omega : T ≤ T * 4)]
    rw [Nat.mul_div_cancel _ (by omega : 0 < T)]
    rw [Nat.min_eq_right hle]
    exact bits_roundtrip lastb.bits t ht

/-- All-zero single-transaction-free block with the given timestamp and the
canonical initial bits `0x1d00ffff`. -/
def c7_block (ti : Nat) : Block :=
  ⟨1, List.replicate 32 0, List.replicate 32 0, ti, 0x1d00ffff, 0, []⟩

def c7x_blocks : List Block := [c7_block 0, c7_block 4, c7_block 77, c7_block 8]

def c7w_blocks : List Block := [c7_block 99, c7_block 0, c7_block 5, c7_block 8]

/-- Counterexample for C7 as stated: with N = 4, T = 8 and timestamps
`[0, 4, 77, 8]`, taking `actual_timespan` from the block N-1 positions back
(index 0, as the claim words it) gives a different retargeted value than the
code, which reads `blocks[-(N-1)]` — the block N-2 positions back (index 1). -/
theorem c7_counterexample :
    get_target 4 8 c7x_blocks ≠ get_target_claimed 4 8 c7x_blocks := by
  decide

/-- Witness for C7: a boundary history whose window took exactly the expected
timespan (`T = 8`, timestamps 0 → 8 over the last N-1 blocks) leaves the
target `0xffff * 2^208` unchanged. -/
theorem c7_witness : get_target 4 8 c7w_blocks = .ok (0x00ffff * 2 ^ 208) :=
  ((c7_get_target_policy 4 8 c7w_blocks (c7_block 8) (by norm_num) (by norm_num)
      (by decide) (by decide)).2 (by decide) (c7_block 0) (0x00ffff * 2 ^ 208)
      (by decide) (by decide)).2 (by decide) (by decide)
